import Mathlib

/-!
Verification of the deployment-notification utilities (src/utils.js).

The JavaScript source is shallowly embedded: JS strings are Lean `String`s
manipulated through their `data` character lists, the external HTTP clients
(GitHub REST, Linear) are oracles passed in as functions, and a call that the
source wraps in try/catch is modelled by an `Except`/`Option` result whose
error branch is the caught exception.
-/

namespace SlackNotify

/-- A Linear issue as returned by the issue-tracker client
(`linearClient.issue(id)`); `none` models both a failed lookup (the thrown,
caught error) and a missing issue. -/
structure Issue where
  identifier : String
  url : String
  title : String
deriving DecidableEq

/-- The ticket record built by `getLinearTicketInfo`
(`{ id: issue.identifier, url: issue.url, title: issue.title }`). -/
structure Ticket where
  id : String
  url : String
  title : String
deriving DecidableEq

/-- A pull request as consumed from the GitHub API: the fields of the
response objects that `getPRsForCommits` reads. -/
structure PullRequest where
  number : Nat
  title : String
  body : String
  base_ref : String
  head_ref : String
  user_login : String
  html_url : String
deriving DecidableEq

/-- The record `getPRsForCommits` adds to its result set. -/
structure PRRecord where
  number : Nat
  title : String
  url : String
  username : String
  linearTickets : List Ticket
deriving DecidableEq

/-- A commit of a base..head comparison: its sha and its parent shas
(the code only reads `commit.parents.length`). -/
structure Commit where
  sha : String
  parents : List String
deriving DecidableEq

/-- One entry of a deployment's status history. -/
structure DeployStatus where
  state : String
deriving DecidableEq

/-- A GitHub deployment: id, commit sha and creation time
(`created_at`, modelled as an integer timestamp; the JS code compares
`new Date(created_at)` values numerically). -/
structure Deployment where
  id : Nat
  sha : String
  created_at : Int
deriving DecidableEq

/-- One Slack attachment field `{ title, value, short }`. -/
structure Field where
  title : String
  value : String
  short : Bool
deriving DecidableEq

/-- The single Slack attachment object the action produces. -/
structure Attachment where
  color : String
  fields : List Field
  footer_icon : String
  footer : String
  ts : Int
deriving DecidableEq

/-- JS `branch.match(/^([a-zA-Z]+-\d+)/)`: an anchored match of one or more
ASCII letters, a hyphen, one or more digits, returning the matched text.
The letter class is greedy and cannot backtrack usefully (a letter never
matches the following `-`), so maximal munch is exact. -/
def ticketIdMatch (branch : String) : Option String :=
  let cs := branch.data
  let letters := cs.takeWhile Char.isAlpha
  if letters.isEmpty then none
  else
    match cs.dropWhile Char.isAlpha with
    | '-' :: rest =>
      let digits := rest.takeWhile Char.isDigit
      if digits.isEmpty then none
      else some ⟨letters ++ '-' :: digits⟩
    | _ => none

/-- `getLinearTicketInfo(linearClient, branch)`: resolve the leading ticket
token of `branch` against the issue tracker; `none` when the branch has no
leading token, the issue is missing, or the lookup throws (caught). -/
def getLinearTicketInfo (linearClient : String → Option Issue)
    (branch : String) : Option Ticket :=
  match ticketIdMatch branch with
  | none => none
  | some ticketId =>
    match linearClient ticketId with
    | none => none
    | some issue => some ⟨issue.identifier, issue.url, issue.title⟩

/-- JS `text.match(/[a-zA-Z]+-\d+/g)`: scan for all non-overlapping matches
of letters+`-`+digits, leftmost first, maximal munch (exact here since
neither `-` nor a digit is a letter). Structural recursion on a fuel that
`scanTokens` instantiates with the text length, which never truncates. -/
def scanTokensGo : Nat → List Char → List String
  | 0, _ => []
  | _, [] => []
  | fuel + 1, c :: rest =>
    if c.isAlpha then
      match rest.dropWhile Char.isAlpha with
      | d :: rest2 =>
        if d = '-' then
          let digits := rest2.takeWhile Char.isDigit
          if digits.isEmpty then scanTokensGo fuel rest
          else ⟨c :: (rest.takeWhile Char.isAlpha ++ '-' :: digits)⟩ ::
            scanTokensGo fuel (rest2.dropWhile Char.isDigit)
        else scanTokensGo fuel rest
      | [] => scanTokensGo fuel rest
    else scanTokensGo fuel rest

/-- All ticket-pattern tokens of a text, in order. -/
def scanTokens (cs : List Char) : List String :=
  scanTokensGo cs.length cs

/-- Whether a whole string matches the ticket pattern
(alphabetic prefix, hyphen, digits): spec-side characterization. -/
def isTicketToken (s : String) : Bool :=
  let L := s.data.takeWhile Char.isAlpha
  match s.data.dropWhile Char.isAlpha with
  | d :: rest => d == '-' && (!L.isEmpty && (!rest.isEmpty && rest.all Char.isDigit))
  | [] => false

/-- The guard of the title/body token loop:
`additionalTicketInfo.id !== branchTicketInfo?.id` (with a missing branch
ticket the comparison is against `undefined` and always true). -/
def notBranchDup (branchTicket : Option Ticket) (info : Ticket) : Bool :=
  match branchTicket with
  | some bt => info.id != bt.id
  | none => true

/-- The `for (const ticketId of ticketIdMatches)` loop of
`getPRsForCommits`: resolve each token and push it unless it resolves to
the branch-derived ticket's identifier. -/
def textPass (linearClient : String → Option Issue)
    (branchTicket : Option Ticket) :
    List String → List Ticket → List Ticket
  | [], acc => acc
  | t :: rest, acc =>
    match getLinearTicketInfo linearClient t with
    | some info =>
      if notBranchDup branchTicket info then
        textPass linearClient branchTicket rest (acc ++ [info])
      else textPass linearClient branchTicket rest acc
    | none => textPass linearClient branchTicket rest acc

/-- Push a ticket unless its identifier is already present
(`!linearTicketInfos.some((t) => t.id === info.id)`). -/
def pushIfNewId (acc : List Ticket) (info : Ticket) : List Ticket :=
  if acc.any (fun t => t.id == info.id) then acc else acc ++ [info]

/-- The linked-PR token loop: resolve each token and push it if its
identifier is new. -/
def dedupPass (linearClient : String → Option Issue)
    (tokens : List String) (acc : List Ticket) : List Ticket :=
  tokens.foldl
    (fun acc t =>
      match getLinearTicketInfo linearClient t with
      | some info => pushIfNewId acc info
      | none => acc)
    acc

/-- JS `pr.title.match(/\(#(\d+)\)$/)`: the title ends in `(#<digits>)`;
returns the parsed number. -/
def titleBackref (title : String) : Option Nat :=
  match title.data.reverse with
  | ')' :: rest =>
    let digits := rest.takeWhile Char.isDigit
    if digits.isEmpty then none
    else
      match rest.dropWhile Char.isDigit with
      | '#' :: '(' :: _ =>
        some ((digits.reverse).foldl (fun n c => n * 10 + (c.toNat - '0'.toNat)) 0)
      | _ => none
  | _ => none

/-- `[t]` for a resolved branch ticket, `[]` otherwise (the initial content
of `linearTicketInfos`). -/
def optList : Option Ticket → List Ticket
  | some t => [t]
  | none => []

/-- The token list of the retained PR's concatenated title and body
(`` `${pr.title} ${pr.body}` ``). -/
def prTextTokens (pr : PullRequest) : List String :=
  scanTokens (pr.title ++ " " ++ pr.body).data

/-- `linearTicketInfos` after the branch lookup and the title/body token
loop, before the linked-PR step. -/
def prBaseTickets (linearClient : String → Option Issue)
    (pr : PullRequest) : List Ticket :=
  let branchTicket := getLinearTicketInfo linearClient pr.head_ref
  textPass linearClient branchTicket (prTextTokens pr) (optList branchTicket)

/-- The per-PR body of `getPRsForCommits`: branch ticket, title/body token
loop, then the linked-PR step when the title ends in `(#n)`. A failing
`pulls.get` is caught, leaving the username and tickets from before the
`try`. Note the source builds `linkedPrTitleAndBodyText` from `pr`, not
from `linkedPr`. -/
def processPR (linearClient : String → Option Issue)
    (pullsGet : Nat → Option PullRequest) (pr : PullRequest) : PRRecord :=
  let afterText := prBaseTickets linearClient pr
  match titleBackref pr.title with
  | none => ⟨pr.number, pr.title, pr.html_url, pr.user_login, afterText⟩
  | some n =>
    match pullsGet n with
    | none => ⟨pr.number, pr.title, pr.html_url, pr.user_login, afterText⟩
    | some linkedPr =>
      let withLinkedBranch :=
        match getLinearTicketInfo linearClient linkedPr.head_ref with
        | some info => pushIfNewId afterText info
        | none => afterText
      let linkedTokens := scanTokens (pr.title ++ " " ++ pr.body).data
      ⟨pr.number, pr.title, pr.html_url, linkedPr.user_login,
        dedupPass linearClient linkedTokens withLinkedBranch⟩

/-- `^release-(patch|hotfix)-` on the PR's base branch. -/
def isReleaseBranch (s : String) : Bool :=
  "release-patch-".data.isPrefixOf s.data ||
    "release-hotfix-".data.isPrefixOf s.data

/-- `getPRsForCommits`: per commit, list the associated PRs (a failure is
caught and skips the commit), keep those based on the default branch or a
release branch, and process each. The JS `Set` of fresh objects never
identifies two entries, so it is a list in insertion order. -/
def getPRsForCommits (listPRs : String → Except String (List PullRequest))
    (linearClient : String → Option Issue)
    (pullsGet : Nat → Option PullRequest)
    (defaultBranchName : String) (commits : List Commit) : List PRRecord :=
  commits.foldl
    (fun acc commit =>
      match listPRs commit.sha with
      | .error _ => acc
      | .ok pulls =>
        acc ++
          ((pulls.filter
            (fun pr =>
              pr.base_ref == defaultBranchName || isReleaseBranch pr.base_ref)).map
            (processPR linearClient pullsGet)))
    []

/-- `statuses.some((status) => status.state === "success")`. -/
def deploymentHasSuccess (sts : List DeployStatus) : Bool :=
  sts.any (fun st => st.state == "success")

/-- The `for (const deployment of deployments)` loop of
`getCurrentDeployment`: fetch each deployment's statuses (a failure throws
out to the surrounding catch) and collect those with a success status. -/
def collectSuccessful (fetchStatuses : Nat → Except String (List DeployStatus)) :
    List Deployment → Except String (List Deployment)
  | [] => .ok []
  | d :: rest =>
    match fetchStatuses d.id with
    | .error e => .error e
    | .ok sts =>
      match collectSuccessful fetchStatuses rest with
      | .error e => .error e
      | .ok ds => .ok (if deploymentHasSuccess sts then d :: ds else ds)

/-- `getCurrentDeployment`: among the fetched deployments, those with a
success status, sorted by `created_at` descending (the JS comparator
`new Date(b.created_at) - new Date(a.created_at)`; `Array.sort` is stable,
as is `mergeSort`), returning the first or `null`; any error is caught and
yields `null`. -/
def getCurrentDeployment (listDeployments : Except String (List Deployment))
    (fetchStatuses : Nat → Except String (List DeployStatus)) :
    Option Deployment :=
  match listDeployments with
  | .error _ => none
  | .ok deployments =>
    match collectSuccessful fetchStatuses deployments with
    | .error _ => none
    | .ok successfulDeployments =>
      if successfulDeployments.length > 0 then
        (successfulDeployments.mergeSort
          (fun a b => b.created_at ≤ a.created_at)).head?
      else none

/-- Whether a deployment would be collected: its status fetch succeeded and
some fetched status has state "success". -/
def deploymentSuccessfulB (fetchStatuses : Nat → Except String (List DeployStatus))
    (d : Deployment) : Bool :=
  match fetchStatuses d.id with
  | .ok sts => deploymentHasSuccess sts
  | .error _ => false

/-- `getCommitsBetween`: the commits of the base..head comparison with
exactly one parent; a comparison failure is caught and yields `[]`. -/
def getCommitsBetween (compareResult : Except String (List Commit)) :
    List Commit :=
  match compareResult with
  | .error _ => []
  | .ok commits => commits.filter (fun c => c.parents.length == 1)

/-- JS `String.prototype.toLowerCase` (ASCII letters; a shallow embedding of
the strings the action handles). -/
def jsToLowerCase (s : String) : String :=
  ⟨s.data.map Char.toLower⟩

/-- JS `String.prototype.toUpperCase` (ASCII letters). -/
def jsToUpperCase (s : String) : String :=
  ⟨s.data.map Char.toUpper⟩

/-- JS `String.prototype.includes` on character lists: some suffix of `l`
starts with `pat`. -/
def containsSub (pat : List Char) : List Char → Bool
  | [] => pat.isEmpty
  | c :: rest => pat.isPrefixOf (c :: rest) || containsSub pat rest

/-- JS `haystack.includes(needle)`. -/
def jsIncludes (haystack needle : String) : Bool :=
  containsSub needle.data haystack.data

/-- `calculateEnvironmentName`. -/
def calculateEnvironmentName (environment : String) : String :=
  if jsIncludes (jsToLowerCase environment) "qa" then "QA"
  else if jsIncludes (jsToLowerCase environment) "prod" then
    ":warning: PROD :warning:"
  else jsToUpperCase environment

/-- Spec-side reading of "contains `pat` in any letter case": at some
position of `l` the next `pat.length` characters lowercase to `pat`. -/
def occursAnyCase (pat : String) (s : String) : Bool :=
  (List.range (s.data.length + 1)).any
    (fun i =>
      ((s.data.drop i).take pat.data.length).map Char.toLower == pat.data)

/-- Spec-side environment label, written from the spec's words: "if name
contains qa → QA; if contains prod → emphasized prod warning label; else
uppercased". -/
def specEnvironmentLabel (environment : String) : String :=
  if occursAnyCase "qa" environment then "QA"
  else if occursAnyCase "prod" environment then ":warning: PROD :warning:"
  else jsToUpperCase environment

/-- JS `name.split(" ")` on a character list: split at every single space
character, keeping empty pieces (always at least one piece). -/
def splitSp : List Char → List (List Char)
  | [] => [[]]
  | c :: rest =>
    let r := splitSp rest
    if c = ' ' then [] :: r else (c :: r.headD []) :: r.tail

/-- `usernameToNameMap.get(pr.username)?.split(" ")?.[0] || pr.username`:
the first space-separated piece of the resolved display name, falling back
to the handle when the lookup yields nothing or the piece is empty
(JS falsy ""). -/
def userFirstName (nameMap : String → Option String) (username : String) :
    String :=
  match nameMap username with
  | none => username
  | some name =>
    let first : String := ⟨(splitSp name.data).headD []⟩
    if first.data.isEmpty then username else first

/-- Spec-side reading of "the first whitespace-separated token" of a name:
drop leading whitespace, then take up to the next whitespace. -/
def firstWhitespaceToken (name : String) : String :=
  ⟨(name.data.dropWhile Char.isWhitespace).takeWhile
    (fun c => !c.isWhitespace)⟩

/-- The bullet line for one (PR, ticket) pair. -/
def ticketLine (pr : PRRecord) (userFirstName : String) (ticket : Ticket) :
    String :=
  "• *" ++ ticket.id ++ "* - <" ++ ticket.url ++ " | " ++ ticket.title ++
    "> (<" ++ pr.url ++ " | PR>) (" ++ userFirstName ++ ")"

/-- The bullet line for a PR with no resolved tickets. -/
def noTicketLine (pr : PRRecord) (userFirstName : String) : String :=
  "• *No ticket* - <" ++ pr.url ++ " | " ++ pr.title ++ "> (" ++
    userFirstName ++ ")"

/-- `prs.flatMap(...)`: one line per (PR, ticket) pair, or one "No ticket"
line for a PR without tickets. -/
def prLines (nameMap : String → Option String) (prs : List PRRecord) :
    List String :=
  prs.flatMap
    (fun pr =>
      let ufn := userFirstName nameMap pr.username
      if pr.linearTickets.length > 0 then pr.linearTickets.map (ticketLine pr ufn)
      else [noTicketLine pr ufn])

/-- One step of the grouping `reduce`: `groupIndex = floor(index / 8)`;
a missing group is created, then the line is pushed. -/
def groupStep (acc : List (List String)) (i : Nat) (line : String) :
    List (List String) :=
  let g := i / 8
  if g < acc.length then acc.set g (acc.getD g [] ++ [line])
  else acc ++ [[line]]

/-- `prLines.reduce(...)`: the lines grouped by `floor(index / 8)`. -/
def prGroups (lines : List String) : List (List String) :=
  lines.enum.foldl (fun acc p => groupStep acc p.1 p.2) []

/-- The title of the group field at (zero-based) position `index`. -/
def groupTitle (index : Nat) : String :=
  if index = 0 then "Pull Requests and Linear Tickets"
  else "Pull Requests and Linear Tickets (" ++ toString (index + 1) ++ ")"

/-- The `prGroups.forEach(...)` fields: one field per group. -/
def prFields (lines : List String) : List Field :=
  (prGroups lines).enum.map
    (fun p => ⟨groupTitle p.1, String.intercalate "\n" p.2, false⟩)

/-- The "Changes" field emitted when no pull request was found. -/
def changesField : Field :=
  ⟨"Changes", "No pull requests found for this deployment", false⟩

/-- The `fields` array of the attachment. -/
def buildFields (serviceName environment status : String)
    (nameMap : String → Option String) (prs : List PRRecord) : List Field :=
  [⟨"Service", serviceName, true⟩,
    ⟨"Environment", calculateEnvironmentName environment, true⟩,
    ⟨"Status", status, true⟩] ++
    (if prs.length > 0 then prFields (prLines nameMap prs) else [changesField])

/-- Spec-side chunking into pieces of (at most) 8, used to characterize the
grouping reduce. -/
def chunk8 (l : List String) : List (List String) :=
  if h : l = [] then [] else l.take 8 :: chunk8 (l.drop 8)
termination_by l.length
decreasing_by
  cases l with
  | nil => exact absurd rfl h
  | cons a l => simp only [List.length_drop, List.length_cons]; omega

/-- `buildSlackAttachments` of the deployment notifier: resolve the current
deployment, expand the commit range (or fall back to the single new
commit), correlate PRs and tickets, and format the attachment. The
external clients are oracles; `ts` models the `Date.now()` read. -/
def buildSlackAttachments
    (listDeployments : Except String (List Deployment))
    (fetchStatuses : Nat → Except String (List DeployStatus))
    (compareWith : String → String → Except String (List Commit))
    (listPRs : String → Except String (List PullRequest))
    (linearClient : String → Option Issue)
    (pullsGet : Nat → Option PullRequest)
    (nameMap : String → Option String)
    (newSha color serviceName environment status defaultBranchName : String)
    (owner repo : String) (ts : Int) : List Attachment :=
  let currentDeployment := getCurrentDeployment listDeployments fetchStatuses
  let commits :=
    match currentDeployment with
    | some d => getCommitsBetween (compareWith d.sha newSha)
    | none => [⟨newSha, []⟩]
  let prs := getPRsForCommits listPRs linearClient pullsGet defaultBranchName commits
  [⟨color, buildFields serviceName environment status nameMap prs,
    "https://github.githubassets.com/favicon.ico",
    "<https://github.com/" ++ owner ++ "/" ++ repo ++ " | " ++ owner ++ "/" ++
      repo ++ ">", ts⟩]

/-- Issue-tracker oracle for the linked-PR example: only "ABC-1" resolves. -/
def lcC1 : String → Option Issue := fun s =>
  if s = "ABC-1" then some ⟨"ABC-1", "https://linear.app/i/ABC-1", "The thing"⟩
  else none

/-- The linked pull request of the example: its title carries the ticket
token "ABC-1"; its branch carries none. -/
def linkedPrC1 : PullRequest :=
  ⟨42, "ABC-1 fix", "", "main", "zz2", "bob", "https://github.com/o/r/pull/42"⟩

/-- The retained pull request of the example: title ends in the
back-reference "(#42)"; neither its branch nor its own text carries a
ticket token. -/
def prC1 : PullRequest :=
  ⟨50, "Fix thing (#42)", "", "main", "qq1", "alice",
    "https://github.com/o/r/pull/50"⟩

/-- `pulls.get` oracle of the example. -/
def pullsGetC1 : Nat → Option PullRequest := fun n =>
  if n = 42 then some linkedPrC1 else none

/-- Issue-tracker oracle for the duplicate-token example. -/
def lcC2 : String → Option Issue := fun s =>
  if s = "ABC-1" then some ⟨"ABC-1", "u", "t"⟩ else none

/-- A retained pull request whose title mentions the same ticket token
twice and whose branch carries no ticket. -/
def prC2 : PullRequest := ⟨7, "ABC-1 ABC-1", "", "main", "x1", "alice", "url"⟩

/-- Issue-tracker oracle for the nodup witness: two distinct tickets. -/
def lcW2 : String → Option Issue := fun s =>
  if s = "AB-1" then some ⟨"AB-1", "u1", "t1"⟩
  else if s = "CD-2" then some ⟨"CD-2", "u2", "t2"⟩
  else none

/-- Nine correlated PR records, each without tickets, for the pagination
witness: nine lines paginate into two fields. -/
def prs9 : List PRRecord :=
  (List.range 9).map (fun i => ⟨i, "t", "u", "user", []⟩)

/-- Deployment list for the resolver witness. -/
def dsW6 : List Deployment := [⟨1, "a", 5⟩]

/-- Status oracle for the resolver witness: no deployment ever succeeded. -/
def fSW6 : Nat → Except String (List DeployStatus) := fun _ =>
  .ok [⟨"failure"⟩]

/-- A retained pull request mentioning two distinct ticket tokens. -/
def prW2 : PullRequest := ⟨8, "AB-1 and CD-2", "", "main", "x1", "a", "u"⟩

theorem length_dropWhile_le (p : Char → Bool) (l : List Char) :
    (l.dropWhile p).length ≤ l.length := by
  induction l with
  | nil => simp
  | cons c rest ih =>
    rw [List.dropWhile_cons]
    split
    · exact Nat.le_trans ih (Nat.le_succ _)
    · exact Nat.le_refl _

theorem textPass_eq (lc : String → Option Issue) (b : Option Ticket)
    (toks : List String) :
    ∀ acc, textPass lc b toks acc =
      acc ++ (toks.filterMap (getLinearTicketInfo lc)).filter (notBranchDup b) := by
  induction toks with
  | nil => intro acc; simp [textPass]
  | cons t rest ih =>
    intro acc
    cases h : getLinearTicketInfo lc t with
    | none => simp [textPass, h, List.filterMap_cons, ih]
    | some info =>
      cases hd : notBranchDup b info with
      | true =>
        simp [textPass, h, hd, List.filterMap_cons, List.filter_cons, ih]
      | false =>
        simp [textPass, h, hd, List.filterMap_cons, List.filter_cons, ih]

theorem splitSp_headD (l : List Char) :
    (splitSp l).headD [] = l.takeWhile (fun c => c != ' ') := by
  induction l with
  | nil => rfl
  | cons c rest ih =>
    by_cases h : c = ' '
    · subst h; simp [splitSp, List.takeWhile_cons]
    · rw [List.headD_eq_head?] at ih
      simp [splitSp, h, List.takeWhile_cons, ih]

theorem containsSub_iff (pat m : List Char) :
    containsSub pat m = true ↔ ∃ i, pat <+: m.drop i := by
  induction m with
  | nil =>
    simp only [containsSub, List.isEmpty_iff, List.drop_nil]
    constructor
    · intro h; exact ⟨0, by simp [h]⟩
    · rintro ⟨i, hi⟩; simpa using List.prefix_nil.mp hi
  | cons c rest ih =>
    simp only [containsSub, Bool.or_eq_true, List.isPrefixOf_iff_prefix, ih]
    constructor
    · rintro (h | ⟨i, hi⟩)
      · exact ⟨0, by simpa using h⟩
      · exact ⟨i + 1, by simpa using hi⟩
    · rintro ⟨i, hi⟩
      cases i with
      | zero => exact Or.inl (by simpa using hi)
      | succ i => exact Or.inr ⟨i, by simpa using hi⟩

theorem occursAnyCase_eq (pat s : String) :
    occursAnyCase pat s = containsSub pat.data (s.data.map Char.toLower) := by
  rw [Bool.eq_iff_iff, containsSub_iff]
  unfold occursAnyCase
  simp only [List.any_eq_true, List.mem_range, beq_iff_eq]
  constructor
  · rintro ⟨i, _, heq⟩
    refine ⟨i, ?_⟩
    rw [List.prefix_iff_eq_take, ← List.map_drop, ← List.map_take, heq]
  · rintro ⟨i, hp⟩
    rw [List.prefix_iff_eq_take, ← List.map_drop, ← List.map_take] at hp
    by_cases hle : i ≤ s.data.length
    · exact ⟨i, by omega, hp.symm⟩
    · refine ⟨s.data.length, by omega, ?_⟩
      rw [List.drop_length]
      rw [List.drop_eq_nil_of_le (by omega)] at hp
      simpa using hp.symm

/-- C5: for every environment name, the label is "QA" when the name
contains "qa" in any letter case, else the warning-wrapped PROD label when
it contains "prod" in any letter case, else the uppercased input. -/
theorem claim5_environment_label (env : String) :
    calculateEnvironmentName env = specEnvironmentLabel env := by
  simp only [calculateEnvironmentName, specEnvironmentLabel, jsIncludes,
    occursAnyCase_eq]
  rfl

/-- C3 counterexample: a parentless (root) commit has at most one parent,
so the claim's "retained iff not more than one parent" would retain it,
but the code's filter (exactly one parent) drops it. -/
theorem claim3_root_commit_counterexample :
    getCommitsBetween (.ok [⟨"a", []⟩]) = []
    ∧ ¬((⟨"a", []⟩ : Commit).parents.length > 1) := by
  decide

/-- C3 (amended): a commit of a successful comparison is retained if and
only if it has exactly one parent. -/
theorem claim3_commit_retained_iff_one_parent (cs : List Commit) (c : Commit) :
    c ∈ getCommitsBetween (.ok cs) ↔ c ∈ cs ∧ c.parents.length = 1 := by
  simp [getCommitsBetween, List.mem_filter]

/-- C3 witness: the retention characterization at a concrete comparison. -/
theorem claim3_commit_retained_iff_one_parent_witness :
    (⟨"a", ["p"]⟩ : Commit) ∈
        getCommitsBetween (.ok [⟨"a", ["p"]⟩, ⟨"b", ["p", "q"]⟩]) ↔
      (⟨"a", ["p"]⟩ : Commit) ∈
          ([⟨"a", ["p"]⟩, ⟨"b", ["p", "q"]⟩] : List Commit) ∧
        (⟨"a", ["p"]⟩ : Commit).parents.length = 1 :=
  claim3_commit_retained_iff_one_parent
    [⟨"a", ["p"]⟩, ⟨"b", ["p", "q"]⟩] ⟨"a", ["p"]⟩

/-- C8: with no correlated pull requests the fields are exactly the three
base fields plus the single "No pull requests found for this deployment"
field, and no field is a "Pull Requests and Linear Tickets" group field. -/
theorem claim8_empty_prs_fields (svc env st : String)
    (nameMap : String → Option String) :
    buildFields svc env st nameMap [] =
      [⟨"Service", svc, true⟩,
        ⟨"Environment", calculateEnvironmentName env, true⟩,
        ⟨"Status", st, true⟩, changesField]
    ∧ ((buildFields svc env st nameMap []).filter
        (fun f => f.title == "Changes" &&
          f.value == "No pull requests found for this deployment")).length = 1
    ∧ (buildFields svc env st nameMap []).all
        (fun f =>
          !("Pull Requests and Linear Tickets".data.isPrefixOf f.title.data))
      = true := by
  refine ⟨rfl, ?_, ?_⟩
  · simp [buildFields, changesField, List.filter]
  · simp +decide [buildFields, changesField, List.all_cons, List.all_nil]

/-- C9: enrichment failures are absorbed: a failing deployment listing
yields no prior deployment, a failing comparison yields the empty commit
list, a failing ticket lookup yields no ticket, and the token loop
continues with the remaining tokens after a failed lookup. -/
theorem claim9_enrichment_failures_absorbed :
    (∀ (e : String) (fS : Nat → Except String (List DeployStatus)),
      getCurrentDeployment (.error e) fS = none)
    ∧ (∀ e : String, getCommitsBetween (.error e) = [])
    ∧ (∀ (lc : String → Option Issue) (branch tid : String),
        ticketIdMatch branch = some tid → lc tid = none →
          getLinearTicketInfo lc branch = none)
    ∧ (∀ (lc : String → Option Issue) (b : Option Ticket) (t : String)
        (rest : List String) (acc : List Ticket),
        getLinearTicketInfo lc t = none →
          textPass lc b (t :: rest) acc = textPass lc b rest acc) := by
  refine ⟨fun e fS => rfl, fun e => rfl, ?_, ?_⟩
  · intro lc branch tid h1 h2
    simp [getLinearTicketInfo, h1, h2]
  · intro lc b t rest acc h
    simp [textPass, h]

/-- C9 witness: the absorbed-failure facts at concrete inputs. -/
theorem claim9_enrichment_failures_absorbed_witness :
    getCurrentDeployment (.error "boom") (fun _ => .ok []) = none
    ∧ getCommitsBetween (Except.error "boom") = []
    ∧ getLinearTicketInfo (fun _ => none) "abc-1" = none
    ∧ textPass (fun _ => none) none ["abc-1"] [] =
        textPass (fun _ => none) none [] [] :=
  ⟨claim9_enrichment_failures_absorbed.1 "boom" _,
    claim9_enrichment_failures_absorbed.2.1 "boom",
    claim9_enrichment_failures_absorbed.2.2.1 _ "abc-1" "abc-1" rfl rfl,
    claim9_enrichment_failures_absorbed.2.2.2 _ none "abc-1" [] [] rfl⟩

/-- C10 counterexample: for the resolved display name " Ann" (leading
space) the first whitespace-separated token is "Ann", the lookup succeeds
and the name is nonempty, yet the code displays the raw handle "u":
JS splits on the space character only and falls back on a falsy first
piece. -/
theorem claim10_first_name_counterexample :
    userFirstName (fun u => if u = "u" then some " Ann" else none) "u" = "u"
    ∧ firstWhitespaceToken " Ann" = "Ann"
    ∧ (fun u => if u = "u" then some " Ann" else none) "u" = some " Ann"
    ∧ (" Ann" : String) ≠ ""
    ∧ ("u" : String) ≠ "Ann" := by
  decide

/-- C10 (amended): the displayed name is the portion of the resolved
display name before the first space character; when the lookup yields
nothing or that portion is empty, it falls back to the raw handle. -/
theorem claim10_user_first_name (nameMap : String → Option String)
    (u : String) :
    userFirstName nameMap u =
      match nameMap u with
      | none => u
      | some name =>
        if (name.data.takeWhile (fun c => c != ' ')).isEmpty then u
        else ⟨name.data.takeWhile (fun c => c != ' ')⟩ := by
  unfold userFirstName
  cases nameMap u with
  | none => rfl
  | some name =>
    simp only [splitSp_headD]

theorem takeWhile_all_append (p : Char → Bool) (L : List Char)
    (hL : ∀ x ∈ L, p x = true) (c : Char) (hc : p c = false) (R : List Char) :
    (L ++ c :: R).takeWhile p = L := by
  induction L with
  | nil => simp [List.takeWhile_cons, hc]
  | cons a L ih =>
    have ha : p a = true := hL a (by simp)
    simp only [List.cons_append, List.takeWhile_cons, ha, if_true]
    rw [ih (fun x hx => hL x (by simp [hx]))]

theorem dropWhile_all_append (p : Char → Bool) (L : List Char)
    (hL : ∀ x ∈ L, p x = true) (c : Char) (hc : p c = false) (R : List Char) :
    (L ++ c :: R).dropWhile p = c :: R := by
  induction L with
  | nil => simp [List.dropWhile_cons, hc]
  | cons a L ih =>
    have ha : p a = true := hL a (by simp)
    simp only [List.cons_append, List.dropWhile_cons, ha, if_true]
    exact ih (fun x hx => hL x (by simp [hx]))

theorem takeWhile_of_all (p : Char → Bool) (l : List Char)
    (h : ∀ x ∈ l, p x = true) : l.takeWhile p = l := by
  induction l with
  | nil => rfl
  | cons a l ih =>
    simp only [List.takeWhile_cons, h a (by simp), if_true]
    rw [ih (fun x hx => h x (by simp [hx]))]

theorem dropWhile_of_all (p : Char → Bool) (l : List Char)
    (h : ∀ x ∈ l, p x = true) : l.dropWhile p = [] := by
  induction l with
  | nil => rfl
  | cons a l ih =>
    simp only [List.dropWhile_cons, h a (by simp), if_true]
    exact ih (fun x hx => h x (by simp [hx]))

theorem scanTokensGo_tokens (fuel : Nat) :
    ∀ (cs : List Char) (t : String), t ∈ scanTokensGo fuel cs →
      isTicketToken t = true := by
  induction fuel with
  | zero => intro cs t ht; simp [scanTokensGo] at ht
  | succ fuel ih =>
    intro cs t ht
    cases cs with
    | nil => simp [scanTokensGo] at ht
    | cons c rest =>
      by_cases hA : c.isAlpha
      · rw [scanTokensGo] at ht
        simp only [hA, if_true] at ht
        cases hm : rest.dropWhile Char.isAlpha with
        | nil => rw [hm] at ht; exact ih rest t ht
        | cons d rest2 =>
          rw [hm] at ht
          dsimp only at ht
          by_cases hd : d = '-'
          · subst hd
            rw [if_pos rfl] at ht
            by_cases hdig : (rest2.takeWhile Char.isDigit).isEmpty = true
            · rw [if_pos hdig] at ht; exact ih rest t ht
            · rw [if_neg hdig] at ht
              rcases List.mem_cons.mp ht with rfl | hmem
              · -- the emitted token matches the ticket pattern
                have hL : ∀ x ∈ rest.takeWhile Char.isAlpha,
                    Char.isAlpha x = true :=
                  fun x hx => List.mem_takeWhile_imp hx
                have hD : ∀ x ∈ rest2.takeWhile Char.isDigit,
                    Char.isDigit x = true :=
                  fun x hx => List.mem_takeWhile_imp hx
                have hdashL : Char.isAlpha '-' = false := by decide
                have hall : ∀ x ∈ c :: rest.takeWhile Char.isAlpha,
                    Char.isAlpha x = true := by
                  intro x hx
                  rcases List.mem_cons.mp hx with rfl | hx
                  · exact hA
                  · exact hL x hx
                unfold isTicketToken
                have hdata :
                    (⟨c :: (rest.takeWhile Char.isAlpha ++
                      '-' :: rest2.takeWhile Char.isDigit)⟩ : String).data =
                      (c :: rest.takeWhile Char.isAlpha) ++
                        '-' :: rest2.takeWhile Char.isDigit := rfl
                rw [hdata]
                rw [takeWhile_all_append Char.isAlpha
                  (c :: rest.takeWhile Char.isAlpha) hall '-' hdashL]
                rw [dropWhile_all_append Char.isAlpha
                  (c :: rest.takeWhile Char.isAlpha) hall '-' hdashL]
                simp only [beq_self_eq_true, Bool.true_and, List.isEmpty_cons,
                  Bool.not_false, Bool.and_eq_true, Bool.not_eq_true']
                refine ⟨by simpa using hdig, ?_⟩
                rw [List.all_eq_true]
                exact hD
              · exact ih _ t hmem
          · rw [if_neg hd] at ht; exact ih rest t ht
      · rw [scanTokensGo] at ht
        simp only [hA] at ht
        exact ih rest t ht

theorem scanTokens_all_tokens (cs : List Char) :
    ∀ t ∈ scanTokens cs, isTicketToken t = true :=
  fun t ht => scanTokensGo_tokens cs.length cs t ht

theorem scanTokensGo_nil (fuel : Nat) : scanTokensGo fuel [] = [] := by
  cases fuel with
  | zero => rfl
  | succ fuel => rfl

theorem scanTokensGo_exact (c : Char) (L' R : List Char) (fuel : Nat)
    (hcA : c.isAlpha = true) (hLA : ∀ x ∈ L', Char.isAlpha x = true)
    (hRne : R ≠ []) (hRd : ∀ x ∈ R, Char.isDigit x = true) :
    scanTokensGo (fuel + 1) (c :: (L' ++ '-' :: R)) =
      [⟨c :: (L' ++ '-' :: R)⟩] := by
  rw [scanTokensGo]
  simp only [hcA, if_true]
  rw [dropWhile_all_append Char.isAlpha L' hLA '-' (by decide) R]
  dsimp only
  rw [if_pos rfl]
  rw [takeWhile_all_append Char.isAlpha L' hLA '-' (by decide) R]
  rw [takeWhile_of_all Char.isDigit R hRd, dropWhile_of_all Char.isDigit R hRd]
  simp [List.isEmpty_iff, hRne, scanTokensGo_nil]

theorem scanTokens_single (w : String) (h : isTicketToken w = true) :
    scanTokens w.data = [w] := by
  unfold isTicketToken at h
  cases hm : w.data.dropWhile Char.isAlpha with
  | nil => rw [hm] at h; simp at h
  | cons d R =>
    rw [hm] at h
    simp only [Bool.and_eq_true, beq_iff_eq, Bool.not_eq_true'] at h
    obtain ⟨hd, hLne, hRne, hRdig⟩ := h
    subst hd
    have hsplit : w.data.takeWhile Char.isAlpha ++ '-' :: R = w.data := by
      rw [← hm]; exact List.takeWhile_append_dropWhile Char.isAlpha w.data
    cases hL : w.data.takeWhile Char.isAlpha with
    | nil => rw [hL] at hLne; simp at hLne
    | cons c L' =>
      rw [hL] at hsplit
      have hcA : c.isAlpha = true :=
        List.mem_takeWhile_imp (by rw [hL]; exact List.mem_cons_self c L')
      have hLA : ∀ x ∈ L', Char.isAlpha x = true := fun x hx =>
        List.mem_takeWhile_imp (by rw [hL]; exact List.mem_cons_of_mem _ hx)
      have hRd : ∀ x ∈ R, Char.isDigit x = true := fun x hx =>
        List.all_eq_true.mp hRdig x hx
      have hRne' : R ≠ [] := by
        intro hR; rw [hR] at hRne; simp at hRne
      have hlist : c :: (L' ++ '-' :: R) = w.data := by
        rw [← hsplit]; rfl
      have hw : (⟨c :: (L' ++ '-' :: R)⟩ : String) = w := congrArg String.mk hlist
      unfold scanTokens
      rw [← hsplit]
      have hgo := scanTokensGo_exact c L' R (L' ++ '-' :: R).length hcA hLA hRne' hRd
      rw [hw] at hgo
      exact hgo

theorem pushIfNewId_nodup (acc : List Ticket) (info : Ticket)
    (h : (acc.map Ticket.id).Nodup) :
    ((pushIfNewId acc info).map Ticket.id).Nodup := by
  unfold pushIfNewId
  split
  · exact h
  · rename_i hany
    rw [List.map_append, List.nodup_append]
    refine ⟨h, List.nodup_singleton _, ?_⟩
    intro x hx hmem
    simp only [List.map_cons, List.map_nil, List.mem_singleton] at hmem
    subst hmem
    rcases List.mem_map.mp hx with ⟨tk, htk, hid⟩
    exact hany (List.any_eq_true.mpr ⟨tk, htk, by simp [hid]⟩)

theorem dedupPass_nodup (lc : String → Option Issue) (tokens : List String) :
    ∀ acc, (acc.map Ticket.id).Nodup →
      ((dedupPass lc tokens acc).map Ticket.id).Nodup := by
  induction tokens with
  | nil => intro acc h; exact h
  | cons t rest ih =>
    intro acc h
    simp only [dedupPass, List.foldl_cons] at *
    cases hg : getLinearTicketInfo lc t with
    | none => exact ih _ h
    | some info => exact ih _ (pushIfNewId_nodup acc info h)

theorem prBaseTickets_nodup (lc : String → Option Issue) (pr : PullRequest)
    (h : (((prTextTokens pr).filterMap (getLinearTicketInfo lc)).map Ticket.id).Nodup) :
    ((prBaseTickets lc pr).map Ticket.id).Nodup := by
  unfold prBaseTickets
  rw [textPass_eq, List.map_append]
  have hsub :
      (((prTextTokens pr).filterMap (getLinearTicketInfo lc)).filter
          (notBranchDup (getLinearTicketInfo lc pr.head_ref))).Sublist
        ((prTextTokens pr).filterMap (getLinearTicketInfo lc)) :=
    List.filter_sublist _
  have hf :
      ((((prTextTokens pr).filterMap (getLinearTicketInfo lc)).filter
          (notBranchDup (getLinearTicketInfo lc pr.head_ref))).map
        Ticket.id).Nodup :=
    List.Nodup.sublist (hsub.map Ticket.id) h
  cases hb : getLinearTicketInfo lc pr.head_ref with
  | none =>
    rw [hb] at hf
    simpa [optList] using hf
  | some b =>
    rw [hb] at hf
    rw [List.nodup_append]
    refine ⟨List.nodup_singleton _, hf, ?_⟩
    intro x hx hmem
    simp only [optList, List.map_cons, List.map_nil, List.mem_singleton] at hx
    subst hx
    rcases List.mem_map.mp hmem with ⟨tk, htk, hid⟩
    have hcond := (List.mem_filter.mp htk).2
    simp only [notBranchDup, bne_iff_ne, ne_eq] at hcond
    exact hcond (by rw [hid])

/-- C2 counterexample: a retained PR whose title mentions the same ticket
token twice and whose branch carries no ticket gets the same ticket
identifier twice: the token loop only guards against the branch-derived
ticket. -/
theorem claim2_dup_ids_counterexample :
    ¬(((processPR lcC2 (fun _ => none) prC2).linearTickets.map
      Ticket.id).Nodup) := by
  decide

/-- C2 (amended): the ticket identifiers of a correlated PR record are
pairwise distinct whenever the tickets resolved from its title-and-body
token occurrences have pairwise distinct identifiers. -/
theorem claim2_ticket_ids_nodup (lc : String → Option Issue)
    (pullsGet : Nat → Option PullRequest) (pr : PullRequest)
    (h : (((prTextTokens pr).filterMap (getLinearTicketInfo lc)).map
      Ticket.id).Nodup) :
    ((processPR lc pullsGet pr).linearTickets.map Ticket.id).Nodup := by
  have hbase := prBaseTickets_nodup lc pr h
  rcases hT : titleBackref pr.title with _ | n
  · simp only [processPR, hT]
    exact hbase
  · rcases hP : pullsGet n with _ | linkedPr
    · simp only [processPR, hT, hP]
      exact hbase
    · simp only [processPR, hT, hP]
      refine dedupPass_nodup lc _ _ ?_
      rcases hL : getLinearTicketInfo lc linkedPr.head_ref with _ | info
      · simp only [hL]
        exact hbase
      · simp only [hL]
        exact pushIfNewId_nodup _ info hbase

/-- C2 witness: two distinct tokens resolve to distinct identifiers and
the resulting PR record's ticket identifiers are distinct. -/
theorem claim2_ticket_ids_nodup_witness :
    ((((prTextTokens prW2).filterMap (getLinearTicketInfo lcW2)).map
      Ticket.id).Nodup)
    ∧ (((processPR lcW2 (fun _ => none) prW2).linearTickets.map
      Ticket.id).Nodup) :=
  ⟨by decide, claim2_ticket_ids_nodup lcW2 (fun _ => none) prW2 (by decide)⟩

/-- C1: the code does replace the displayed author with the linked PR's
author, but the tickets "unioned in from the linked PR's text" are scanned
from the retained PR's own title and body (the source assigns
linkedPrTitleAndBodyText from pr, not linkedPr), so a ticket that occurs
only in the linked PR's text is never added: here the linked PR's text
carries the resolvable token "ABC-1", yet the ticket list stays empty. -/
theorem claim1_linked_text_bug :
    (processPR lcC1 pullsGetC1 prC1).username = "bob"
    ∧ titleBackref prC1.title = some 42
    ∧ pullsGetC1 42 = some linkedPrC1
    ∧ scanTokens (linkedPrC1.title ++ " " ++ linkedPrC1.body).data = ["ABC-1"]
    ∧ getLinearTicketInfo lcC1 "ABC-1" =
        some ⟨"ABC-1", "https://linear.app/i/ABC-1", "The thing"⟩
    ∧ (processPR lcC1 pullsGetC1 prC1).linearTickets = [] := by
  decide

/-- C7: the title/body pass adds exactly the resolved tokens of the
concatenated title and body, in order, minus those resolving to the
branch-derived ticket's identifier; every extracted token matches the
ticket pattern, and a string that is exactly a ticket-pattern token is
extracted from itself. -/
theorem claim7_text_ticket_extraction (lc : String → Option Issue)
    (pr : PullRequest) :
    prBaseTickets lc pr =
      optList (getLinearTicketInfo lc pr.head_ref) ++
        ((prTextTokens pr).filterMap (getLinearTicketInfo lc)).filter
          (notBranchDup (getLinearTicketInfo lc pr.head_ref))
    ∧ (prTextTokens pr).all isTicketToken = true
    ∧ (∀ w : String, isTicketToken w = true → scanTokens w.data = [w]) := by
  refine ⟨?_, ?_, scanTokens_single⟩
  · unfold prBaseTickets
    exact textPass_eq lc _ _ _
  · rw [List.all_eq_true]
    exact scanTokens_all_tokens _

/-- C7 witness: a concrete ticket-pattern token is extracted from itself. -/
theorem claim7_text_ticket_extraction_witness :
    scanTokens "AB-12".data = ["AB-12"] :=
  (claim7_text_ticket_extraction (fun _ => none)
    ⟨0, "", "", "", "", "", ""⟩).2.2 "AB-12" (by decide)

theorem collectSuccessful_ok (fetchS : Nat → Except String (List DeployStatus))
    (ds : List Deployment) (h : ∀ d ∈ ds, (fetchS d.id).isOk = true) :
    collectSuccessful fetchS ds = .ok (ds.filter (deploymentSuccessfulB fetchS)) := by
  induction ds with
  | nil => rfl
  | cons d rest ih =>
    have hd := h d (by simp)
    cases hS : fetchS d.id with
    | error e => rw [hS] at hd; simp [Except.isOk, Except.toBool] at hd
    | ok sts =>
      have ihh := ih (fun x hx => h x (by simp [hx]))
      rw [collectSuccessful, hS, ihh]
      simp only [List.filter_cons, deploymentSuccessfulB, hS]

theorem mergeSort_head_max (l : List Deployment) (d : Deployment)
    (h : (l.mergeSort (fun a b => b.created_at ≤ a.created_at)).head? = some d) :
    d ∈ l ∧ ∀ x ∈ l, x.created_at ≤ d.created_at := by
  have htrans : ∀ a b c : Deployment,
      (decide (b.created_at ≤ a.created_at)) = true →
        (decide (c.created_at ≤ b.created_at)) = true →
          (decide (c.created_at ≤ a.created_at)) = true := by
    intro a b c h1 h2
    simp only [decide_eq_true_eq] at *
    omega
  have htotal : ∀ a b : Deployment,
      ((decide (b.created_at ≤ a.created_at)) ||
        (decide (a.created_at ≤ b.created_at))) = true := by
    intro a b
    simp only [Bool.or_eq_true, decide_eq_true_eq]
    omega
  have hperm := List.mergeSort_perm l
    (fun a b => decide (b.created_at ≤ a.created_at))
  have hsorted := List.sorted_mergeSort htrans htotal l
  cases hs : l.mergeSort (fun a b => decide (b.created_at ≤ a.created_at)) with
  | nil => rw [hs] at h; simp at h
  | cons hd tl =>
    rw [hs] at h hperm hsorted
    simp only [List.head?_cons, Option.some.injEq] at h
    rw [h] at hperm hsorted
    constructor
    · exact hperm.mem_iff.mp (by simp)
    · intro x hx
      have hx' : x ∈ d :: tl := hperm.mem_iff.mpr hx
      rcases List.mem_cons.mp hx' with rfl | hx''
      · omega
      · have := (List.pairwise_cons.mp hsorted).1 x hx''
        simpa using this

/-- C6: on successfully fetched data, the deployment resolver returns none
exactly when no fetched deployment has a success status, and otherwise a
deployment that has a success status and the latest creation timestamp
among all such deployments. -/
theorem claim6_current_deployment (ds : List Deployment)
    (fetchS : Nat → Except String (List DeployStatus))
    (h : ∀ d ∈ ds, (fetchS d.id).isOk = true) :
    (getCurrentDeployment (.ok ds) fetchS = none ↔
      ∀ d ∈ ds, deploymentSuccessfulB fetchS d = false)
    ∧ ∀ d, getCurrentDeployment (.ok ds) fetchS = some d →
        d ∈ ds ∧ deploymentSuccessfulB fetchS d = true ∧
          ∀ d' ∈ ds, deploymentSuccessfulB fetchS d' = true →
            d'.created_at ≤ d.created_at := by
  have hc := collectSuccessful_ok fetchS ds h
  rw [getCurrentDeployment, hc]
  by_cases hnil : ds.filter (deploymentSuccessfulB fetchS) = []
  · rw [hnil]
    simp only [List.length_nil, gt_iff_lt, Nat.lt_irrefl, if_false]
    constructor
    · simp only [true_iff]
      intro d hd
      have := List.filter_eq_nil_iff.mp hnil d hd
      simpa using this
    · intro d hd
      exact absurd hd (by simp)
  · have hlen : (ds.filter (deploymentSuccessfulB fetchS)).length > 0 :=
      List.length_pos.mpr hnil
    simp only [hlen, if_true]
    have hne :
        (ds.filter (deploymentSuccessfulB fetchS)).mergeSort
          (fun a b => b.created_at ≤ a.created_at) ≠ [] := by
      intro heq
      exact hnil (by
        have := List.mergeSort_perm (ds.filter (deploymentSuccessfulB fetchS))
          (fun a b => decide (b.created_at ≤ a.created_at))
        rw [heq] at this
        exact (List.perm_nil.mp this.symm).symm ▸ rfl)
    constructor
    · constructor
      · intro habs
        exact absurd (List.head?_eq_none_iff.mp habs) hne
      · intro hall
        exfalso
        rcases List.exists_mem_of_ne_nil _ hnil with ⟨d, hd⟩
        have hmem := List.mem_filter.mp hd
        exact absurd (hall d hmem.1) (by simp [hmem.2])
    · intro d hd
      obtain ⟨hmem, hmax⟩ := mergeSort_head_max _ d hd
      have hmf := List.mem_filter.mp hmem
      refine ⟨hmf.1, hmf.2, ?_⟩
      intro d' hd' hsucc'
      exact hmax d' (List.mem_filter.mpr ⟨hd', hsucc'⟩)

/-- C6 witness: with a single fetched deployment whose statuses hold no
success, the resolver returns none. -/
theorem claim6_current_deployment_witness :
    getCurrentDeployment (.ok dsW6) fSW6 = none ↔
      ∀ d ∈ dsW6, deploymentSuccessfulB fSW6 d = false :=
  (claim6_current_deployment dsW6 fSW6 (by decide)).1

theorem chunk8_nil : chunk8 [] = [] := by
  simp [chunk8]

theorem chunk8_cons (l : List String) (h : l ≠ []) :
    chunk8 l = l.take 8 :: chunk8 (l.drop 8) := by
  rw [chunk8]
  simp [h]

theorem chunk8_length (n : Nat) :
    ∀ l : List String, l.length ≤ n →
      (chunk8 l).length = (l.length + 7) / 8 := by
  induction n with
  | zero =>
    intro l hl
    have h0 : l = [] := List.eq_nil_of_length_eq_zero (Nat.le_zero.mp hl)
    subst h0
    simp [chunk8_nil]
  | succ n ih =>
    intro l hl
    by_cases h : l = []
    · subst h; simp [chunk8_nil]
    · rw [chunk8_cons l h]
      have hpos : 1 ≤ l.length := List.length_pos.mpr h
      have hdrop : (l.drop 8).length ≤ n := by
        simp only [List.length_drop]; omega
      rw [List.length_cons, ih (l.drop 8) hdrop, List.length_drop]
      omega

theorem chunk8_sizes (n : Nat) :
    ∀ l : List String, l.length ≤ n → ∀ g ∈ chunk8 l, g.length ≤ 8 := by
  induction n with
  | zero =>
    intro l hl g hg
    have h0 : l = [] := List.eq_nil_of_length_eq_zero (Nat.le_zero.mp hl)
    subst h0
    rw [chunk8_nil] at hg
    simp at hg
  | succ n ih =>
    intro l hl g hg
    by_cases h : l = []
    · subst h; rw [chunk8_nil] at hg; simp at hg
    · rw [chunk8_cons l h] at hg
      rcases List.mem_cons.mp hg with rfl | hg'
      · simp only [List.length_take]
        omega
      · have hpos : 1 ≤ l.length := List.length_pos.mpr h
        exact ih (l.drop 8) (by simp only [List.length_drop]; omega) g hg'

theorem chunk8_snoc_full (n : Nat) :
    ∀ pre : List String, pre.length ≤ n → pre.length % 8 = 0 →
      ∀ x, chunk8 (pre ++ [x]) = chunk8 pre ++ [[x]] := by
  induction n with
  | zero =>
    intro pre hl _ x
    have h0 : pre = [] := List.eq_nil_of_length_eq_zero (Nat.le_zero.mp hl)
    subst h0
    simp only [List.nil_append, chunk8_nil]
    rw [chunk8_cons [x] (by simp)]
    simp [chunk8_nil]
  | succ n ih =>
    intro pre hl h8 x
    by_cases h : pre = []
    · subst h
      simp only [List.nil_append, chunk8_nil]
      rw [chunk8_cons [x] (by simp)]
      simp [chunk8_nil]
    · have hpos : 1 ≤ pre.length := List.length_pos.mpr h
      have hge : 8 ≤ pre.length := by omega
      rw [chunk8_cons (pre ++ [x]) (by simp), chunk8_cons pre h]
      rw [List.take_append_of_le_length hge, List.drop_append_of_le_length hge]
      rw [ih (pre.drop 8) (by simp only [List.length_drop]; omega)
        (by simp only [List.length_drop]; omega) x]
      simp

theorem chunk8_snoc_partial (n : Nat) :
    ∀ pre : List String, pre.length ≤ n → pre.length % 8 ≠ 0 →
      ∀ x, chunk8 (pre ++ [x]) =
        (chunk8 pre).set (pre.length / 8)
          ((chunk8 pre).getD (pre.length / 8) [] ++ [x]) := by
  induction n with
  | zero =>
    intro pre hl h8 x
    have h0 : pre = [] := List.eq_nil_of_length_eq_zero (Nat.le_zero.mp hl)
    subst h0
    simp at h8
  | succ n ih =>
    intro pre hl h8 x
    by_cases h : pre = []
    · subst h; simp at h8
    · have hpos : 1 ≤ pre.length := List.length_pos.mpr h
      by_cases hlt : pre.length < 8
      · have h1 : chunk8 pre = [pre] := by
          rw [chunk8_cons pre h, List.take_of_length_le (by omega),
            List.drop_eq_nil_of_le (by omega), chunk8_nil]
        have h2 : chunk8 (pre ++ [x]) = [pre ++ [x]] := by
          rw [chunk8_cons (pre ++ [x]) (by simp),
            List.take_of_length_le (by simp [List.length_append]; omega),
            List.drop_eq_nil_of_le (by simp [List.length_append]; omega),
            chunk8_nil]
        have hdiv : pre.length / 8 = 0 := by omega
        rw [h1, h2, hdiv]
        simp
      · have hge : 8 ≤ pre.length := by omega
        rw [chunk8_cons (pre ++ [x]) (by simp), chunk8_cons pre h]
        rw [List.take_append_of_le_length hge, List.drop_append_of_le_length hge]
        rw [ih (pre.drop 8) (by simp only [List.length_drop]; omega)
          (by simp only [List.length_drop]; omega) x]
        have hdiv : pre.length / 8 = (pre.drop 8).length / 8 + 1 := by
          simp only [List.length_drop]; omega
        rw [hdiv, List.set_cons_succ, List.getD_cons_succ]

theorem groupStep_chunk8 (pre : List String) (x : String) :
    groupStep (chunk8 pre) pre.length x = chunk8 (pre ++ [x]) := by
  unfold groupStep
  have hlen : (chunk8 pre).length = (pre.length + 7) / 8 :=
    chunk8_length pre.length pre (Nat.le_refl _)
  by_cases h8 : pre.length % 8 = 0
  · have hge : ¬(pre.length / 8 < (chunk8 pre).length) := by
      rw [hlen]; omega
    rw [if_neg hge, chunk8_snoc_full pre.length pre (Nat.le_refl _) h8 x]
  · have hlt : pre.length / 8 < (chunk8 pre).length := by
      rw [hlen]; omega
    rw [if_pos hlt, chunk8_snoc_partial pre.length pre (Nat.le_refl _) h8 x]

theorem foldl_groupStep (post : List String) :
    ∀ pre : List String,
      (List.enumFrom pre.length post).foldl
        (fun acc p => groupStep acc p.1 p.2) (chunk8 pre) =
      chunk8 (pre ++ post) := by
  induction post with
  | nil => intro pre; simp
  | cons x post' ih =>
    intro pre
    rw [List.enumFrom_cons, List.foldl_cons]
    dsimp only
    rw [groupStep_chunk8 pre x]
    have hihx := ih (pre ++ [x])
    rw [List.length_append] at hihx
    simp only [List.length_cons, List.length_nil, Nat.zero_add] at hihx
    rw [hihx]
    simp

theorem prGroups_eq_chunk8 (lines : List String) :
    prGroups lines = chunk8 lines := by
  unfold prGroups
  have hfold := foldl_groupStep lines []
  simp only [List.length_nil, List.nil_append] at hfold
  rw [← hfold, chunk8_nil]
  rfl

theorem prLines_length (nameMap : String → Option String)
    (prs : List PRRecord) (h : ∀ pr ∈ prs, pr.linearTickets.length ≤ 1) :
    (prLines nameMap prs).length = prs.length := by
  induction prs with
  | nil => rfl
  | cons pr rest ih =>
    have hpr := h pr (by simp)
    unfold prLines at *
    rw [List.flatMap_cons, List.length_append]
    rw [ih (fun x hx => h x (by simp [hx]))]
    by_cases hl : pr.linearTickets.length > 0
    · simp only [hl, if_true, List.length_map, List.length_cons]
      omega
    · simp only [hl, if_false, List.length_cons, List.length_nil]
      omega

theorem prFields_titles (lines : List String) (i : Nat)
    (hi : i < (prFields lines).length) :
    ((prFields lines).get ⟨i, hi⟩).title = groupTitle i := by
  unfold prFields at *
  rw [List.get_eq_getElem]
  rw [List.getElem_map]
  rw [List.getElem_enum]

/-- C4: for N pull requests each contributing exactly one line, the
formatter emits ceil(N/8) group fields of at most 8 lines each; the first
field's title carries no numeric suffix and the k-th field (k from 2) is
suffixed with k. -/
theorem claim4_formatter_pagination (nameMap : String → Option String)
    (prs : List PRRecord) (h1 : prs ≠ [])
    (h2 : ∀ pr ∈ prs, pr.linearTickets.length ≤ 1) :
    (prFields (prLines nameMap prs)).length = (prs.length + 7) / 8
    ∧ (∀ g ∈ prGroups (prLines nameMap prs), g.length ≤ 8)
    ∧ (∀ i (hi : i < (prFields (prLines nameMap prs)).length),
        ((prFields (prLines nameMap prs)).get ⟨i, hi⟩).title = groupTitle i)
    ∧ groupTitle 0 = "Pull Requests and Linear Tickets"
    ∧ (∀ k, 2 ≤ k →
        groupTitle (k - 1) =
          "Pull Requests and Linear Tickets (" ++ toString k ++ ")") := by
  have hlines := prLines_length nameMap prs h2
  refine ⟨?_, ?_, prFields_titles _, rfl, ?_⟩
  · unfold prFields
    rw [List.length_map, List.enum_length]
    rw [prGroups_eq_chunk8]
    rw [chunk8_length (prLines nameMap prs).length _ (Nat.le_refl _), hlines]
  · intro g hg
    rw [prGroups_eq_chunk8] at hg
    exact chunk8_sizes (prLines nameMap prs).length _ (Nat.le_refl _) g hg
  · intro k hk
    unfold groupTitle
    rw [if_neg (by omega)]
    have hkk : k - 1 + 1 = k := by omega
    rw [hkk]

/-- C4 witness: nine one-line pull requests paginate into two fields. -/
theorem claim4_formatter_pagination_witness :
    (prFields (prLines (fun _ => none) prs9)).length = (prs9.length + 7) / 8
    ∧ groupTitle 0 = "Pull Requests and Linear Tickets" :=
  ⟨(claim4_formatter_pagination (fun _ => none) prs9 (by decide) (by decide)).1,
    (claim4_formatter_pagination (fun _ => none) prs9 (by decide)
      (by decide)).2.2.2.1⟩

end SlackNotify
